import Mathlib

/-!
Verification development for `src/clear.js`.

The script's core is a bounded-concurrency task runner (`ThreadPool`):
tasks are queued, started up to a limit `maxThreads`, and each task's
completion handler records its fulfilment value, decrements the running
count, dispatches the next queued task, and resolves the `runAll` promise
once everything is drained.

We embed the pool as an explicit state machine.  The JavaScript runs on a
single-threaded event loop, so every handler body executes atomically with
respect to the others; the nondeterminism lies only in which running task
settles next.  A `Step` of the machine is "one active task settles": it
performs, in source order, the `.then` push (for a fulfilled task; a
rejected task is only logged by `.catch` and contributes nothing), the
`.finally` decrement, the conditional dispatch of one queued task, and the
completion check.  In JavaScript the `.then` and `.finally` handlers of
distinct tasks may interleave as separate microtasks, but a task's push
always precedes its own decrement and the completion check only fires when
every decrement has happened, so the atomic-settlement model produces
exactly the observable states of the source.

Ghost fields `startLog` (indices in the order `task()` was invoked) and
`completed` (indices in settlement order) record the event history; they
are write-only and never influence control flow.

The tag-classification and tag-deletion glue of `main` is embedded as pure
functions over the outcomes of the external `git` calls.
-/

namespace ClearJs

/-- Terminal outcome of an asynchronous task: the promise returned by
`task()` either fulfils with a value or rejects with an error message. -/
inductive Outcome (α : Type) where
  | ok (v : α)
  | err (e : String)
deriving DecidableEq

/-- The fulfilment value of an outcome, `none` for a rejection. -/
def okValue {α : Type} : Outcome α → Option α
  | Outcome.ok v => some v
  | Outcome.err _ => none

/-- The fulfilment value of the `i`-th task of `jobs`, `none` when the task
rejects or the index is out of range. -/
def okOf {α : Type} (jobs : List (Outcome α)) (i : Nat) : Option α :=
  match jobs.get? i with
  | some (Outcome.ok v) => some v
  | _ => none

/-- State of a `ThreadPool` instance (`src/clear.js`, lines 198-254).
Tasks are referred to by their index into a fixed ambient list `jobs`.
`this.running` of the source is `active.length`; `done` is the value the
pending `runAll` promise has been resolved with, if any.  `startLog` and
`completed` are ghost history fields (see the module docstring). -/
structure PoolState (α : Type) where
  maxThreads : Nat
  queue : List Nat
  active : List Nat
  results : List α
  done : Option (List α)
  startLog : List Nat
  completed : List Nat
deriving DecidableEq

namespace ThreadPool

/-- The constructor `new ThreadPool(maxThreads)` (lines 199-204). -/
def init (α : Type) (maxThreads : Nat) : PoolState α :=
  { maxThreads := maxThreads, queue := [], active := [], results := [],
    done := none, startLog := [], completed := [] }

/-- The synchronous part of `_startThread` (lines 226-233): shift a task
off the queue (a no-op on an empty queue), increment `running`, and invoke
`task()`.  The invocation is recorded in the ghost `startLog`; the task's
settlement is a later `Step`. -/
def startThread {α : Type} (s : PoolState α) : PoolState α :=
  match s.queue with
  | [] => s
  | i :: rest =>
      { s with queue := rest, active := s.active ++ [i],
               startLog := s.startLog ++ [i] }

/-- The loop body of `_startThreads` (lines 219-224), driven by fuel;
`startThreads` supplies fuel `queue.length`, which bounds the number of
loop iterations since each iteration shifts one task. -/
def startThreadsAux {α : Type} : Nat → PoolState α → PoolState α
  | 0, s => s
  | Nat.succ n, s =>
      if s.active.length < s.maxThreads ∧ 0 < s.queue.length then
        startThreadsAux n (startThread s)
      else s

/-- `_startThreads` (lines 219-224): start tasks while `running <
maxThreads` and the queue is non-empty. -/
def startThreads {α : Type} (s : PoolState α) : PoolState α :=
  startThreadsAux s.queue.length s

/-- The synchronous part of `runAll` (lines 206-217): push every task onto
the queue, run `_startThreads`, and store the new promise's `resolve` as
`_onComplete` (modelled by resetting `done` to `none`: the fresh promise is
pending). -/
def runAll {α : Type} (s : PoolState α) (tasks : List Nat) : PoolState α :=
  startThreads { s with queue := s.queue ++ tasks, done := none }

/-- A fresh pool of size `K` running `runAll` over all indices of `jobs`,
as `main` does at lines 138 and 173. -/
def initRun {α : Type} (jobs : List (Outcome α)) (K : Nat) : PoolState α :=
  runAll (init α K) (List.range jobs.length)

/-- The `.then` handler (lines 234-236): push the fulfilment value onto
`this.results`.  The `.catch` handler (lines 237-239) only logs a
rejection, so a rejected task leaves `results` unchanged. -/
def recordResult {α : Type} (jobs : List (Outcome α)) (s : PoolState α)
    (i : Nat) : PoolState α :=
  match jobs.get? i with
  | some (Outcome.ok v) => { s with results := s.results ++ [v] }
  | _ => s

/-- Start of the `.finally` handler (line 241): `this.running--`.  The
settled task `i` leaves the active set; the ghost `completed` records it. -/
def finishTask {α : Type} (s : PoolState α) (i : Nat) : PoolState α :=
  { s with active := s.active.erase i, completed := s.completed ++ [i] }

/-- Middle of the `.finally` handler (lines 243-246): if the queue is
non-empty, start one more task. -/
def dispatchNext {α : Type} (s : PoolState α) : PoolState α :=
  if 0 < s.queue.length then startThread s else s

/-- End of the `.finally` handler (lines 248-251): if `running === 0` and
the queue is empty, resolve the `runAll` promise with `this.results`. -/
def checkComplete {α : Type} (s : PoolState α) : PoolState α :=
  if s.active.length = 0 ∧ s.queue.length = 0 then
    { s with done := some s.results }
  else s

/-- Settlement of active task `i`: the full handler chain attached to
`task()` at lines 233-252, in source order. -/
def completeJob {α : Type} (jobs : List (Outcome α)) (s : PoolState α)
    (i : Nat) : PoolState α :=
  checkComplete (dispatchNext (finishTask (recordResult jobs s i) i))

end ThreadPool

/-- One event of the pool's event loop: some currently active task
settles and its handler chain runs. -/
inductive Step {α : Type} (jobs : List (Outcome α)) :
    PoolState α → PoolState α → Prop where
  | complete (s : PoolState α) (i : Nat) (hmem : i ∈ s.active) :
      Step jobs s (ThreadPool.completeJob jobs s i)

/-- States reachable from `s` by running the event loop. -/
def Reachable {α : Type} (jobs : List (Outcome α))
    (s s' : PoolState α) : Prop :=
  Relation.ReflTransGen (Step jobs) s s'

/-! ## The tag-deletion glue of `main` -/

/-- `isTagNotFoundError` (lines 40-45); its argument is
`error.stderr || ''`, so a missing `stderr` is the empty string. -/
def isTagNotFoundError (stderr : String) : Bool :=
  decide ("remote ref does not exist".toList <:+: stderr.toList) ||
  decide ("remote ref is at".toList <:+: stderr.toList) ||
  decide ("tag does not exist".toList <:+: stderr.toList)

/-- Result of the external call `git push origin --delete tag`. -/
inductive PushResult where
  | ok
  | err (stderr : String)
deriving DecidableEq

/-- The three result arrays of `main` (lines 141-143); an entry of
`failedTags` is the pair of the tag and the error's `stderr`. -/
structure DeleteState where
  successTags : List String
  failedTags : List (String × String)
  deletedLocalTags : List String
deriving DecidableEq

/-- The body of one delete task (lines 146-170), given the outcome
`pushResult tag` of the remote deletion and, for the tag-not-found branch,
whether the local deletion `git tag -d tag` succeeds (`localDeleteOk`). -/
def deleteTask (pushResult : String → PushResult)
    (localDeleteOk : String → Bool)
    (st : DeleteState) (tag : String) : DeleteState :=
  match pushResult tag with
  | PushResult.ok => { st with successTags := st.successTags ++ [tag] }
  | PushResult.err e =>
      if isTagNotFoundError e then
        if localDeleteOk tag then
          { st with deletedLocalTags := st.deletedLocalTags ++ [tag] }
        else st
      else { st with failedTags := st.failedTags ++ [(tag, e)] }

/-- The accumulated effect of all delete tasks on the three arrays.  The
tasks run concurrently, but each pushes its tag onto exactly one array (or
none), so membership and counts are those of this sequential fold. -/
def runDeleteTasks (pushResult : String → PushResult)
    (localDeleteOk : String → Bool) (tags : List String) : DeleteState :=
  tags.foldl (deleteTask pushResult localDeleteOk) ⟨[], [], []⟩

/-! ## The tag-classification glue of `main` (lines 79-104) -/

/-- Line 84-85: `tag.startsWith('v35') || ... || tag.startsWith('v38')`. -/
def startsWith35to38 (tag : List Char) : Bool :=
  "v35".toList.isPrefixOf tag || "v36".toList.isPrefixOf tag ||
  "v37".toList.isPrefixOf tag || "v38".toList.isPrefixOf tag

/-- Line 89: `/[^0-9.]/.test(tag.substring(3))` — some character from
index 3 on is neither an ASCII digit nor `'.'`. -/
def hasSuffixAfter3 (tag : List Char) : Bool :=
  (tag.drop 3).any (fun c => !(c.isDigit || c == '.'))

/-- The body of the `allTags.forEach` classification (lines 82-104),
pushing each tag onto `tagsToDelete` (first component) or `tagsToKeep`
(second component). -/
def classifyStep (acc : List (List Char) × List (List Char))
    (tag : List Char) : List (List Char) × List (List Char) :=
  if startsWith35to38 tag then
    if hasSuffixAfter3 tag then (acc.1 ++ [tag], acc.2)
    else (acc.1, acc.2 ++ [tag])
  else
    if "v".toList.isPrefixOf tag then (acc.1 ++ [tag], acc.2)
    else (acc.1, acc.2 ++ [tag])

/-- `(tagsToDelete, tagsToKeep)` as built by `main` from `allTags`. -/
def mainPartition (tags : List (List Char)) :
    List (List Char) × List (List Char) :=
  tags.foldl classifyStep ([], [])

/-- The per-tag deletion condition exactly as the claim words it: the tag
starts with `'v'`, and either it does not start with `'v35'`/`'v36'`/
`'v37'`/`'v38'`, or its substring from index 3 on contains a character
other than an ASCII digit or `'.'`. -/
def claimDelete (tag : List Char) : Bool :=
  "v".toList.isPrefixOf tag &&
    (!(startsWith35to38 tag) || hasSuffixAfter3 tag)

/-! ## Basic lemmas about the pool operations -/

namespace ThreadPool

lemma startThread_maxThreads {α : Type} (s : PoolState α) :
    (startThread s).maxThreads = s.maxThreads := by
  rcases s with ⟨mt, q, a, r, d, l, c⟩
  cases q <;> rfl

lemma startThread_results {α : Type} (s : PoolState α) :
    (startThread s).results = s.results := by
  rcases s with ⟨mt, q, a, r, d, l, c⟩
  cases q <;> rfl

lemma startThread_done {α : Type} (s : PoolState α) :
    (startThread s).done = s.done := by
  rcases s with ⟨mt, q, a, r, d, l, c⟩
  cases q <;> rfl

lemma startThread_completed {α : Type} (s : PoolState α) :
    (startThread s).completed = s.completed := by
  rcases s with ⟨mt, q, a, r, d, l, c⟩
  cases q <;> rfl

lemma startThread_log_queue {α : Type} (s : PoolState α) :
    (startThread s).startLog ++ (startThread s).queue = s.startLog ++ s.queue := by
  rcases s with ⟨mt, q, a, r, d, l, c⟩
  cases q with
  | nil => rfl
  | cons i rest => simp [startThread]

lemma startThread_perm {α : Type} (s : PoolState α)
    (h : s.startLog.Perm (s.completed ++ s.active)) :
    (startThread s).startLog.Perm
      ((startThread s).completed ++ (startThread s).active) := by
  rcases s with ⟨mt, q, a, r, d, l, c⟩
  cases q with
  | nil => exact h
  | cons i rest =>
      simp only [startThread]
      have h1 : (l ++ [i]).Perm ((c ++ a) ++ [i]) := h.append_right [i]
      have h2 : (c ++ a) ++ [i] = c ++ (a ++ [i]) := by simp
      rw [h2] at h1
      exact h1

lemma startThread_active_len {α : Type} (s : PoolState α)
    (h : 0 < s.queue.length) :
    (startThread s).active.length = s.active.length + 1 := by
  rcases s with ⟨mt, q, a, r, d, l, c⟩
  cases q with
  | nil => simp at h
  | cons i rest => simp [startThread]

lemma startThread_queue_len {α : Type} (s : PoolState α)
    (h : 0 < s.queue.length) :
    (startThread s).queue.length = s.queue.length - 1 := by
  rcases s with ⟨mt, q, a, r, d, l, c⟩
  cases q with
  | nil => simp at h
  | cons i rest => simp [startThread]

lemma startThreadsAux_maxThreads {α : Type} (n : Nat) (s : PoolState α) :
    (startThreadsAux n s).maxThreads = s.maxThreads := by
  induction n generalizing s with
  | zero => rfl
  | succ n ih =>
      simp only [startThreadsAux]
      split
      · rw [ih, startThread_maxThreads]
      · rfl

lemma startThreadsAux_results {α : Type} (n : Nat) (s : PoolState α) :
    (startThreadsAux n s).results = s.results := by
  induction n generalizing s with
  | zero => rfl
  | succ n ih =>
      simp only [startThreadsAux]
      split
      · rw [ih, startThread_results]
      · rfl

lemma startThreadsAux_done {α : Type} (n : Nat) (s : PoolState α) :
    (startThreadsAux n s).done = s.done := by
  induction n generalizing s with
  | zero => rfl
  | succ n ih =>
      simp only [startThreadsAux]
      split
      · rw [ih, startThread_done]
      · rfl

lemma startThreadsAux_completed {α : Type} (n : Nat) (s : PoolState α) :
    (startThreadsAux n s).completed = s.completed := by
  induction n generalizing s with
  | zero => rfl
  | succ n ih =>
      simp only [startThreadsAux]
      split
      · rw [ih, startThread_completed]
      · rfl

lemma startThreadsAux_log_queue {α : Type} (n : Nat) (s : PoolState α) :
    (startThreadsAux n s).startLog ++ (startThreadsAux n s).queue =
      s.startLog ++ s.queue := by
  induction n generalizing s with
  | zero => rfl
  | succ n ih =>
      simp only [startThreadsAux]
      split
      · rw [ih, startThread_log_queue]
      · rfl

lemma startThreadsAux_perm {α : Type} (n : Nat) (s : PoolState α)
    (h : s.startLog.Perm (s.completed ++ s.active)) :
    (startThreadsAux n s).startLog.Perm
      ((startThreadsAux n s).completed ++ (startThreadsAux n s).active) := by
  induction n generalizing s with
  | zero => exact h
  | succ n ih =>
      simp only [startThreadsAux]
      split
      · exact ih (startThread s) (startThread_perm s h)
      · exact h

lemma startThreadsAux_cap {α : Type} (n : Nat) (s : PoolState α)
    (h : s.active.length ≤ s.maxThreads) :
    (startThreadsAux n s).active.length ≤ s.maxThreads := by
  induction n generalizing s with
  | zero => exact h
  | succ n ih =>
      simp only [startThreadsAux]
      split
      · rename_i hc
        have h1 := ih (startThread s)
          (by rw [startThread_active_len s hc.2, startThread_maxThreads]; omega)
        rw [startThread_maxThreads] at h1
        exact h1
      · exact h

lemma startThreadsAux_sat {α : Type} (n : Nat) (s : PoolState α)
    (hn : s.queue.length ≤ n) :
    0 < (startThreadsAux n s).queue.length →
      ¬ (startThreadsAux n s).active.length < (startThreadsAux n s).maxThreads := by
  induction n generalizing s with
  | zero =>
      intro hq
      simp only [startThreadsAux] at hq
      omega
  | succ n ih =>
      simp only [startThreadsAux]
      split
      · rename_i hc
        exact ih (startThread s)
          (by rw [startThread_queue_len s hc.2]; omega)
      · rename_i hc
        intro hq hlt
        exact hc ⟨hlt, hq⟩

lemma runAll_results {α : Type} (s : PoolState α) (tasks : List Nat) :
    (runAll s tasks).results = s.results := by
  unfold runAll startThreads
  rw [startThreadsAux_results]

lemma runAll_done {α : Type} (s : PoolState α) (tasks : List Nat) :
    (runAll s tasks).done = none := by
  unfold runAll startThreads
  rw [startThreadsAux_done]

lemma checkComplete_queue {α : Type} (s : PoolState α) :
    (checkComplete s).queue = s.queue := by
  unfold checkComplete
  split <;> rfl

lemma checkComplete_active {α : Type} (s : PoolState α) :
    (checkComplete s).active = s.active := by
  unfold checkComplete
  split <;> rfl

lemma checkComplete_results {α : Type} (s : PoolState α) :
    (checkComplete s).results = s.results := by
  unfold checkComplete
  split <;> rfl

lemma checkComplete_startLog {α : Type} (s : PoolState α) :
    (checkComplete s).startLog = s.startLog := by
  unfold checkComplete
  split <;> rfl

lemma checkComplete_completed {α : Type} (s : PoolState α) :
    (checkComplete s).completed = s.completed := by
  unfold checkComplete
  split <;> rfl

lemma checkComplete_maxThreads {α : Type} (s : PoolState α) :
    (checkComplete s).maxThreads = s.maxThreads := by
  unfold checkComplete
  split <;> rfl

lemma checkComplete_eq_of_not {α : Type} (s : PoolState α)
    (h : ¬ (s.active.length = 0 ∧ s.queue.length = 0)) : checkComplete s = s := by
  unfold checkComplete
  rw [if_neg h]

lemma completeJob_eq {α : Type} (jobs : List (Outcome α)) (s : PoolState α)
    (i : Nat) :
    completeJob jobs s i =
      checkComplete (dispatchNext { s with
        results := s.results ++ (okOf jobs i).toList,
        active := s.active.erase i,
        completed := s.completed ++ [i] }) := by
  unfold completeJob finishTask recordResult okOf
  cases jobs.get? i with
  | none => simp
  | some o => cases o <;> simp

lemma dispatchNext_eq_nil {α : Type} (s : PoolState α) (hq : s.queue = []) :
    dispatchNext s = s := by
  unfold dispatchNext
  rw [hq]
  simp

lemma dispatchNext_eq_cons {α : Type} (s : PoolState α) (t : Nat)
    (rest : List Nat) (hq : s.queue = t :: rest) :
    dispatchNext s = { s with queue := rest, active := s.active ++ [t],
                              startLog := s.startLog ++ [t] } := by
  rcases s with ⟨mt, q, a, r, d, l, c⟩
  simp only at hq
  subst hq
  simp [dispatchNext, startThread]

lemma completeJob_proj_nil {α : Type} (jobs : List (Outcome α))
    (s : PoolState α) (i : Nat) (hq : s.queue = []) :
    (completeJob jobs s i).queue = [] ∧
    (completeJob jobs s i).active = s.active.erase i ∧
    (completeJob jobs s i).startLog = s.startLog ∧
    (completeJob jobs s i).completed = s.completed ++ [i] ∧
    (completeJob jobs s i).results = s.results ++ (okOf jobs i).toList ∧
    (completeJob jobs s i).maxThreads = s.maxThreads := by
  have hq' : ({ s with results := s.results ++ (okOf jobs i).toList,
                       active := s.active.erase i,
                       completed := s.completed ++ [i] } : PoolState α).queue = [] := hq
  rw [completeJob_eq, dispatchNext_eq_nil _ hq']
  rw [checkComplete_queue, checkComplete_active, checkComplete_startLog,
      checkComplete_completed, checkComplete_results, checkComplete_maxThreads]
  exact ⟨hq, rfl, rfl, rfl, rfl, rfl⟩

lemma completeJob_proj_cons {α : Type} (jobs : List (Outcome α))
    (s : PoolState α) (i t : Nat) (rest : List Nat)
    (hq : s.queue = t :: rest) :
    (completeJob jobs s i).queue = rest ∧
    (completeJob jobs s i).active = s.active.erase i ++ [t] ∧
    (completeJob jobs s i).startLog = s.startLog ++ [t] ∧
    (completeJob jobs s i).completed = s.completed ++ [i] ∧
    (completeJob jobs s i).results = s.results ++ (okOf jobs i).toList ∧
    (completeJob jobs s i).maxThreads = s.maxThreads := by
  have hq' : ({ s with results := s.results ++ (okOf jobs i).toList,
                       active := s.active.erase i,
                       completed := s.completed ++ [i] } : PoolState α).queue =
      t :: rest := hq
  rw [completeJob_eq, dispatchNext_eq_cons _ t rest hq']
  rw [checkComplete_queue, checkComplete_active, checkComplete_startLog,
      checkComplete_completed, checkComplete_results, checkComplete_maxThreads]
  exact ⟨rfl, rfl, rfl, rfl, rfl, rfl⟩

lemma completeJob_done_preserved {α : Type} (jobs : List (Outcome α))
    (s : PoolState α) (i : Nat)
    (h : ¬ ((completeJob jobs s i).active.length = 0 ∧
            (completeJob jobs s i).queue.length = 0)) :
    (completeJob jobs s i).done = s.done := by
  rw [completeJob_eq] at h ⊢
  rw [checkComplete_active, checkComplete_queue] at h
  rw [checkComplete_eq_of_not _ h]
  rcases hq : s.queue with _ | ⟨t, rest⟩
  · have hq' : ({ s with queue := ([] : List Nat),
                         results := s.results ++ (okOf jobs i).toList,
                         active := s.active.erase i,
                         completed := s.completed ++ [i] } : PoolState α).queue = [] := rfl
    rw [dispatchNext_eq_nil _ hq']
  · have hq' : ({ s with queue := t :: rest,
                         results := s.results ++ (okOf jobs i).toList,
                         active := s.active.erase i,
                         completed := s.completed ++ [i] } : PoolState α).queue =
        t :: rest := rfl
    rw [dispatchNext_eq_cons _ t rest hq']

lemma completeJob_resolves {α : Type} (jobs : List (Outcome α))
    (s : PoolState α) (i : Nat)
    (ha : (completeJob jobs s i).active = [])
    (hq : (completeJob jobs s i).queue = []) :
    (completeJob jobs s i).done = some (completeJob jobs s i).results := by
  rw [completeJob_eq] at ha hq ⊢
  set u := dispatchNext { s with
    results := s.results ++ (okOf jobs i).toList,
    active := s.active.erase i,
    completed := s.completed ++ [i] } with hu
  rw [checkComplete_active] at ha
  rw [checkComplete_queue] at hq
  unfold checkComplete
  rw [if_pos ⟨by rw [ha]; rfl, by rw [hq]; rfl⟩]

end ThreadPool

/-! ## The run invariant -/

open ThreadPool

/-- `List.filterMap` over a one-element list. -/
lemma filterMap_one {β γ : Type} (f : β → Option γ) (a : β) :
    List.filterMap f [a] = (f a).toList := by
  cases h : f a <;> simp [List.filterMap_cons, h]

/-- Invariant of every state reachable in a run `initRun jobs K`:
the dispatch log followed by the queue is the submission order; the
dispatch log splits into settled and active tasks; `results` holds exactly
the fulfilment values of the settled tasks in settlement order; the active
count respects the limit and is saturated while tasks are queued. -/
structure Good {α : Type} (jobs : List (Outcome α)) (K : Nat)
    (s : PoolState α) : Prop where
  mt : s.maxThreads = K
  log_queue : s.startLog ++ s.queue = List.range jobs.length
  perm : s.startLog.Perm (s.completed ++ s.active)
  res : s.results = s.completed.filterMap (okOf jobs)
  cap : s.active.length ≤ K
  sat : 0 < s.queue.length → s.active.length = K

lemma good_initRun {α : Type} (jobs : List (Outcome α)) (K : Nat) :
    Good jobs K (initRun jobs K) := by
  have hinit : initRun jobs K = startThreads
      ({ maxThreads := K, queue := List.range jobs.length, active := [],
         results := [], done := none, startLog := [],
         completed := [] } : PoolState α) := by
    unfold initRun runAll init
    simp
  rw [hinit]
  unfold startThreads
  constructor
  · rw [startThreadsAux_maxThreads]
  · rw [startThreadsAux_log_queue]
    simp
  · exact startThreadsAux_perm _ _ (List.Perm.refl _)
  · rw [startThreadsAux_results, startThreadsAux_completed]
    rfl
  · exact startThreadsAux_cap _ _ (Nat.zero_le _)
  · intro hq
    have h1 := startThreadsAux_sat
      (({ maxThreads := K, queue := List.range jobs.length, active := [],
          results := [], done := none, startLog := [],
          completed := [] } : PoolState α)).queue.length _ (Nat.le_refl _) hq
    have h2 := startThreadsAux_cap
      (({ maxThreads := K, queue := List.range jobs.length, active := [],
          results := [], done := none, startLog := [],
          completed := [] } : PoolState α)).queue.length
      ({ maxThreads := K, queue := List.range jobs.length, active := [],
         results := [], done := none, startLog := [],
         completed := [] } : PoolState α) (Nat.zero_le _)
    rw [startThreadsAux_maxThreads] at h1
    have h3 : ({ maxThreads := K, queue := List.range jobs.length, active := [],
                 results := [], done := none, startLog := [],
                 completed := [] } : PoolState α).maxThreads = K := rfl
    rw [h3] at h1 h2
    omega

lemma good_step {α : Type} {jobs : List (Outcome α)} {K : Nat}
    {s : PoolState α} (hG : Good jobs K s) (i : Nat) (hmem : i ∈ s.active) :
    Good jobs K (completeJob jobs s i) := by
  have hapos : 0 < s.active.length := List.length_pos.mpr
    (fun h => by rw [h] at hmem; exact (List.not_mem_nil i) hmem)
  have hcap := hG.cap
  have herase : (s.active.erase i).length = s.active.length - 1 :=
    List.length_erase_of_mem hmem
  have hperm1 : s.active.Perm (i :: s.active.erase i) := List.perm_cons_erase hmem
  have hperm2 : s.startLog.Perm ((s.completed ++ [i]) ++ s.active.erase i) := by
    have h1 : s.startLog.Perm (s.completed ++ (i :: s.active.erase i)) :=
      hG.perm.trans (List.Perm.append_left s.completed hperm1)
    rw [List.append_cons] at h1
    exact h1
  have hres : s.results ++ (okOf jobs i).toList =
      (s.completed ++ [i]).filterMap (okOf jobs) := by
    rw [List.filterMap_append, filterMap_one, hG.res]
  rcases hq : s.queue with _ | ⟨t, rest⟩
  · obtain ⟨p1, p2, p3, p4, p5, p6⟩ := completeJob_proj_nil jobs s i hq
    constructor
    · rw [p6, hG.mt]
    · rw [p3, p1, List.append_nil]
      have := hG.log_queue
      rw [hq, List.append_nil] at this
      exact this
    · rw [p3, p4, p2]
      exact hperm2
    · rw [p5, p4, hres]
    · rw [p2]
      omega
    · intro hlen
      rw [p1] at hlen
      simp at hlen
  · obtain ⟨p1, p2, p3, p4, p5, p6⟩ := completeJob_proj_cons jobs s i t rest hq
    have hK : s.active.length = K := hG.sat (by rw [hq]; simp)
    constructor
    · rw [p6, hG.mt]
    · rw [p3, p1]
      have := hG.log_queue
      rw [hq, List.append_cons] at this
      exact this
    · rw [p3, p4, p2]
      have h1 : (s.startLog ++ [t]).Perm
          (((s.completed ++ [i]) ++ s.active.erase i) ++ [t]) :=
        hperm2.append_right [t]
      have h2 : ((s.completed ++ [i]) ++ s.active.erase i) ++ [t] =
          (s.completed ++ [i]) ++ (s.active.erase i ++ [t]) := by
        simp
      rw [h2] at h1
      exact h1
    · rw [p5, p4, hres]
    · rw [p2, List.length_append]
      simp
      omega
    · intro _
      rw [p2, List.length_append]
      simp
      omega

lemma good_reachable {α : Type} {jobs : List (Outcome α)} {K : Nat}
    {s : PoolState α}
    (h : Reachable jobs (initRun jobs K) s) : Good jobs K s := by
  induction h with
  | refl => exact good_initRun jobs K
  | tail _ hstep ih =>
      cases hstep with
      | complete i hmem => exact good_step ih i hmem

/-! ## Resolution, monotonicity, progress -/

/-- The pending `runAll` promise, once resolved, was resolved with the
current `results`, at a moment when nothing was active or queued. -/
def FinOk {α : Type} (s : PoolState α) : Prop :=
  ∀ r, s.done = some r → r = s.results ∧ s.active = [] ∧ s.queue = []

lemma finOk_step {α : Type} {jobs : List (Outcome α)} {s : PoolState α}
    (hF : FinOk s) (i : Nat) (hmem : i ∈ s.active) :
    FinOk (completeJob jobs s i) := by
  intro r hr
  by_cases hc : (completeJob jobs s i).active.length = 0 ∧
      (completeJob jobs s i).queue.length = 0
  · have ha : (completeJob jobs s i).active = [] := List.length_eq_zero.mp hc.1
    have hq : (completeJob jobs s i).queue = [] := List.length_eq_zero.mp hc.2
    have hd := completeJob_resolves jobs s i ha hq
    rw [hd] at hr
    exact ⟨(Option.some_inj.mp hr).symm, ha, hq⟩
  · rw [completeJob_done_preserved jobs s i hc] at hr
    obtain ⟨_, ha, _⟩ := hF r hr
    rw [ha] at hmem
    exact absurd hmem (List.not_mem_nil i)

lemma finOk_reachable {α : Type} {jobs : List (Outcome α)}
    {s₀ s : PoolState α} (h : Reachable jobs s₀ s) (h₀ : s₀.done = none) :
    FinOk s := by
  induction h with
  | refl => intro r hr; rw [h₀] at hr; exact absurd hr (by simp)
  | tail _ hstep ih =>
      cases hstep with
      | complete i hmem => exact finOk_step ih i hmem

lemma completeJob_results_append {α : Type} (jobs : List (Outcome α))
    (s : PoolState α) (i : Nat) :
    (completeJob jobs s i).results = s.results ++ (okOf jobs i).toList := by
  rcases hq : s.queue with _ | ⟨t, rest⟩
  · exact (completeJob_proj_nil jobs s i hq).2.2.2.2.1
  · exact (completeJob_proj_cons jobs s i t rest hq).2.2.2.2.1

lemma reachable_results_append {α : Type} {jobs : List (Outcome α)}
    {s₀ s : PoolState α} (h : Reachable jobs s₀ s) :
    ∃ t, s.results = s₀.results ++ t := by
  induction h with
  | refl => exact ⟨[], by simp⟩
  | tail _ hstep ih =>
      obtain ⟨t1, ht1⟩ := ih
      cases hstep with
      | complete i hmem =>
          exact ⟨t1 ++ (okOf jobs i).toList,
            by rw [completeJob_results_append, ht1, List.append_assoc]⟩

/-- From a state with no active task, the event loop can take no step. -/
lemma reachable_of_inactive {α : Type} {jobs : List (Outcome α)}
    {s₀ s : PoolState α} (h : Reachable jobs s₀ s) (ha : s₀.active = []) :
    s = s₀ := by
  rcases h.cases_head with heq | ⟨b, hstep, _⟩
  · exact heq.symm
  · cases hstep with
    | complete i hmem =>
        rw [ha] at hmem
        exact absurd hmem (List.not_mem_nil i)

/-- Each step settles one task: the measure `2·|queue| + |active|`
strictly decreases, so no run of the event loop is infinite. -/
lemma step_measure {α : Type} {jobs : List (Outcome α)}
    {s s' : PoolState α} (hstep : Step jobs s s') :
    2 * s'.queue.length + s'.active.length <
      2 * s.queue.length + s.active.length := by
  cases hstep with
  | complete i hmem =>
      have hapos : 0 < s.active.length := List.length_pos.mpr
        (fun h => by rw [h] at hmem; exact (List.not_mem_nil i) hmem)
      have herase : (s.active.erase i).length = s.active.length - 1 :=
        List.length_erase_of_mem hmem
      rcases hq : s.queue with _ | ⟨t, rest⟩
      · obtain ⟨p1, p2, _, _, _, _⟩ := completeJob_proj_nil jobs s i hq
        rw [p1, p2, herase]
        simp
        omega
      · obtain ⟨p1, p2, _, _, _, _⟩ := completeJob_proj_cons jobs s i t rest hq
        rw [p1, p2, List.length_append, herase]
        simp
        omega

/-- The list of fulfilment values indexed over the whole range is the
filterMap of the job list itself. -/
lemma filterMap_okOf_range {α : Type} (jobs : List (Outcome α)) :
    (List.range jobs.length).filterMap (okOf jobs) = jobs.filterMap okValue := by
  induction jobs with
  | nil => rfl
  | cons j rest ih =>
      rw [List.length_cons, List.range_succ_eq_map, List.filterMap_cons,
          List.filterMap_map]
      have hcomp : (okOf (j :: rest)) ∘ Nat.succ = okOf rest := by
        funext k
        rfl
      rw [hcomp, ih]
      cases j with
      | ok v => rfl
      | err e => rfl

/-! ## Lemmas about the tag-deletion glue -/

/-- Whether the remote deletion of `t` succeeds. -/
def isPushOk (pushResult : String → PushResult) (t : String) : Bool :=
  match pushResult t with
  | PushResult.ok => true
  | PushResult.err _ => false

/-- Whether the remote deletion of `t` fails with an error other than
tag-not-found (the branch that records into `failedTags`). -/
def isPushFailed (pushResult : String → PushResult) (t : String) : Bool :=
  match pushResult t with
  | PushResult.ok => false
  | PushResult.err e => !isTagNotFoundError e

/-- The `stderr` of the remote deletion of `t` (empty on success). -/
def stderrOf (pushResult : String → PushResult) (t : String) : String :=
  match pushResult t with
  | PushResult.ok => ""
  | PushResult.err e => e

lemma isPushOk_of_ok {pr : String → PushResult} {t : String}
    (hp : pr t = PushResult.ok) : isPushOk pr t = true := by
  unfold isPushOk
  rw [hp]

lemma isPushOk_of_err {pr : String → PushResult} {t e : String}
    (hp : pr t = PushResult.err e) : isPushOk pr t = false := by
  unfold isPushOk
  rw [hp]

lemma isPushFailed_of_ok {pr : String → PushResult} {t : String}
    (hp : pr t = PushResult.ok) : isPushFailed pr t = false := by
  unfold isPushFailed
  rw [hp]

lemma isPushFailed_of_err {pr : String → PushResult} {t e : String}
    (hp : pr t = PushResult.err e) :
    isPushFailed pr t = !isTagNotFoundError e := by
  unfold isPushFailed
  rw [hp]

lemma stderrOf_err {pr : String → PushResult} {t e : String}
    (hp : pr t = PushResult.err e) : stderrOf pr t = e := by
  unfold stderrOf
  rw [hp]

lemma deleteTask_of_ok {pr : String → PushResult} {ld : String → Bool}
    {st : DeleteState} {t : String} (hp : pr t = PushResult.ok) :
    deleteTask pr ld st t = { st with successTags := st.successTags ++ [t] } := by
  unfold deleteTask
  rw [hp]

lemma deleteTask_of_nf {pr : String → PushResult} {ld : String → Bool}
    {st : DeleteState} {t e : String} (hp : pr t = PushResult.err e)
    (hn : isTagNotFoundError e = true) :
    deleteTask pr ld st t =
      (if ld t then
        { st with deletedLocalTags := st.deletedLocalTags ++ [t] }
      else st) := by
  unfold deleteTask
  rw [hp]
  simp [hn]

lemma deleteTask_of_failed {pr : String → PushResult} {ld : String → Bool}
    {st : DeleteState} {t e : String} (hp : pr t = PushResult.err e)
    (hn : isTagNotFoundError e = false) :
    deleteTask pr ld st t =
      { st with failedTags := st.failedTags ++ [(t, e)] } := by
  unfold deleteTask
  rw [hp]
  simp [hn]

lemma foldl_successTags (pr : String → PushResult) (ld : String → Bool)
    (st : DeleteState) (tags : List String) :
    (tags.foldl (deleteTask pr ld) st).successTags =
      st.successTags ++ tags.filter (isPushOk pr) := by
  induction tags generalizing st with
  | nil => simp
  | cons t ts ih =>
      rw [List.foldl_cons, ih, List.filter_cons]
      cases hp : pr t with
      | ok =>
          rw [deleteTask_of_ok hp, isPushOk_of_ok hp]
          simp
      | err e =>
          rw [isPushOk_of_err hp]
          by_cases hn : isTagNotFoundError e = true
          · rw [deleteTask_of_nf hp hn]
            by_cases hl : ld t <;> simp [hl]
          · rw [deleteTask_of_failed hp (by simpa using hn)]
            simp

lemma foldl_failedTags (pr : String → PushResult) (ld : String → Bool)
    (st : DeleteState) (tags : List String) :
    (tags.foldl (deleteTask pr ld) st).failedTags =
      st.failedTags ++
        (tags.filter (isPushFailed pr)).map (fun t => (t, stderrOf pr t)) := by
  induction tags generalizing st with
  | nil => simp
  | cons t ts ih =>
      rw [List.foldl_cons, ih, List.filter_cons]
      cases hp : pr t with
      | ok =>
          rw [deleteTask_of_ok hp, isPushFailed_of_ok hp]
          simp
      | err e =>
          rw [isPushFailed_of_err hp]
          by_cases hn : isTagNotFoundError e = true
          · rw [deleteTask_of_nf hp hn, hn]
            by_cases hl : ld t <;> simp [hl]
          · have hn' : isTagNotFoundError e = false := by simpa using hn
            rw [deleteTask_of_failed hp hn', hn']
            simp [stderrOf_err hp]

lemma foldl_deletedLocalTags (pr : String → PushResult) (ld : String → Bool)
    (st : DeleteState) (tags : List String) :
    (tags.foldl (deleteTask pr ld) st).deletedLocalTags =
      st.deletedLocalTags ++
        tags.filter (fun t => !isPushOk pr t && !isPushFailed pr t && ld t) := by
  induction tags generalizing st with
  | nil => simp
  | cons t ts ih =>
      rw [List.foldl_cons, ih, List.filter_cons]
      cases hp : pr t with
      | ok =>
          rw [deleteTask_of_ok hp]
          simp [isPushOk_of_ok hp]
      | err e =>
          by_cases hn : isTagNotFoundError e = true
          · rw [deleteTask_of_nf hp hn]
            by_cases hl : ld t
            · simp [isPushOk_of_err hp, isPushFailed_of_err hp, hn, hl]
            · simp [isPushOk_of_err hp, isPushFailed_of_err hp, hn, hl]
          · have hn' : isTagNotFoundError e = false := by simpa using hn
            rw [deleteTask_of_failed hp hn']
            simp [isPushOk_of_err hp, isPushFailed_of_err hp, hn']

lemma filters_le (pr : String → PushResult) (tags : List String) :
    (tags.filter (isPushOk pr)).length +
      (tags.filter (isPushFailed pr)).length ≤ tags.length := by
  induction tags with
  | nil => simp
  | cons t ts ih =>
      rw [List.filter_cons, List.filter_cons]
      cases hp : pr t with
      | ok =>
          rw [isPushOk_of_ok hp, isPushFailed_of_ok hp]
          simp
          omega
      | err e =>
          rw [isPushOk_of_err hp, isPushFailed_of_err hp]
          by_cases hn : isTagNotFoundError e = true
          · simp [hn]
            omega
          · have hn' : isTagNotFoundError e = false := by simpa using hn
            simp [hn']
            omega

/-! ## Lemmas about the tag classification -/

lemma isPrefixOf_true (l₁ l₂ : List Char) :
    l₁.isPrefixOf l₂ = true ↔ l₁ <+: l₂ :=
  List.isPrefixOf_iff_prefix

lemma v_of_35 (tag : List Char) (h : startsWith35to38 tag = true) :
    "v".toList.isPrefixOf tag = true := by
  unfold startsWith35to38 at h
  simp only [Bool.or_eq_true] at h
  have hv : ∀ l : List Char, l.isPrefixOf tag = true →
      "v".toList <+: l → "v".toList.isPrefixOf tag = true := by
    intro l hl hvl
    exact (isPrefixOf_true _ _).mpr (hvl.trans ((isPrefixOf_true _ _).mp hl))
  rcases h with ((h | h) | h) | h
  · exact hv _ h (by decide)
  · exact hv _ h (by decide)
  · exact hv _ h (by decide)
  · exact hv _ h (by decide)

lemma classifyStep_eq (acc : List (List Char) × List (List Char))
    (tag : List Char) :
    classifyStep acc tag =
      if claimDelete tag = true then (acc.1 ++ [tag], acc.2)
      else (acc.1, acc.2 ++ [tag]) := by
  unfold classifyStep claimDelete
  by_cases h35 : startsWith35to38 tag = true
  · have hv' : (['v'] : List Char) <+: tag := by
      simpa using (isPrefixOf_true _ _).mp (v_of_35 tag h35)
    by_cases hs : hasSuffixAfter3 tag = true
    · simp [h35, hs, hv']
    · simp [h35, hs, hv']
  · by_cases hv : "v".toList.isPrefixOf tag = true
    · have hv' : (['v'] : List Char) <+: tag := by
        simpa using (isPrefixOf_true _ _).mp hv
      simp [h35, hv']
    · have hv' : ¬ ((['v'] : List Char) <+: tag) := by
        intro hh
        exact hv ((isPrefixOf_true _ _).mpr (by simpa using hh))
      simp [h35, hv']

lemma mainPartition_foldl (tags : List (List Char))
    (d k : List (List Char)) :
    tags.foldl classifyStep (d, k) =
      (d ++ tags.filter claimDelete,
       k ++ tags.filter (fun t => !claimDelete t)) := by
  induction tags generalizing d k with
  | nil => simp
  | cons t ts ih =>
      rw [List.foldl_cons, classifyStep_eq, List.filter_cons, List.filter_cons]
      by_cases hc : claimDelete t = true
      · rw [if_pos hc, ih]
        simp [hc]
      · rw [if_neg hc, ih]
        have hc' : claimDelete t = false := by simpa using hc
        simp [hc']

/-! ## Concrete runs used by witnesses and counterexamples -/

def jobsA : List (Outcome Nat) := [Outcome.ok 3, Outcome.err "x"]

def runA1 : PoolState Nat := completeJob jobsA (initRun jobsA 1) 0

def runA2 : PoolState Nat := completeJob jobsA runA1 1

def jobsB : List (Outcome Nat) := [Outcome.err "boom"]

def runB : PoolState Nat := completeJob jobsB (initRun jobsB 1) 0

def jobsC : List (Outcome Nat) := [Outcome.err "boom", Outcome.ok 7]

def runC1 : PoolState Nat := completeJob jobsC (initRun jobsC 1) 0

def runC2 : PoolState Nat := completeJob jobsC runC1 1

def jobsD : List (Outcome Nat) := [Outcome.err "a", Outcome.ok 2, Outcome.ok 3]

def runD1 : PoolState Nat := completeJob jobsD (initRun jobsD 1) 0

def jobsE : List (Outcome Nat) := [Outcome.ok 0]

def runE : PoolState Nat := completeJob jobsE (initRun jobsE 1) 0

def jobsF : List (Outcome Nat) := [Outcome.ok 5]

def runF : PoolState Nat := completeJob jobsF (initRun jobsF 2) 0

def jobsG : List (Outcome Nat) := [Outcome.ok 1, Outcome.ok 2]

def poolH : PoolState Nat := { init Nat 1 with results := [5] }

def jobsH : List (Outcome Nat) := [Outcome.ok 9]

def runH : PoolState Nat := completeJob jobsH (runAll poolH [0]) 0

def prStrict : String → PushResult :=
  fun _ => PushResult.err "remote ref does not exist"

def ldStrict : String → Bool := fun _ => true

def prW : String → PushResult :=
  fun t => if t = "a" then PushResult.err "tag does not exist" else PushResult.ok

def ldW : String → Bool := fun _ => false

/-! ## Claim theorems -/

/-- C1, counterexample to the claim as stated: for the one-job list whose
job rejects, `runAll` resolves (`done`) with the empty collection — `0`
entries for `N = 1` submitted jobs, and no entry at all for the failed
job. -/
theorem C1_counterexample :
    Reachable jobsB (initRun jobsB 1) runB ∧
    runB.done = some [] ∧
    jobsB.length = 1 ∧
    ¬ (([] : List Nat).length = jobsB.length) := by
  refine ⟨?_, by decide, by decide, by decide⟩
  show Reachable jobsB (initRun jobsB 1) (completeJob jobsB (initRun jobsB 1) 0)
  exact Relation.ReflTransGen.single (Step.complete _ 0 (by decide))

/-- C1 (amended): whenever `runAll` on a fresh pool resolves, the
collection it resolves with is, up to completion order, exactly the
fulfilment values of the jobs — one entry per job that fulfils, no entry
for a job that rejects; in particular it has `N` entries when every job
fulfils. -/
theorem C1_resolved_collection {α : Type} (jobs : List (Outcome α))
    (K : Nat) (s : PoolState α) (r : List α)
    (h : Reachable jobs (initRun jobs K) s) (hd : s.done = some r) :
    r.Perm (jobs.filterMap okValue) := by
  have hG := good_reachable h
  have hF := finOk_reachable h (by unfold initRun; exact runAll_done _ _)
  obtain ⟨hr, ha, hq⟩ := hF r hd
  have hlog : s.startLog = List.range jobs.length := by
    have hx := hG.log_queue
    rw [hq, List.append_nil] at hx
    exact hx
  have hcomp : s.completed.Perm (List.range jobs.length) := by
    have hp := hG.perm
    rw [ha, List.append_nil] at hp
    have hp' := hp.symm
    rw [hlog] at hp'
    exact hp'
  have hres : s.results.Perm ((List.range jobs.length).filterMap (okOf jobs)) := by
    rw [hG.res]
    exact List.Perm.filterMap _ hcomp
  rw [filterMap_okOf_range] at hres
  rw [hr]
  exact hres

/-- C1 witness: the run of `[ok 3, err "x"]` with limit 1 resolves with
exactly the fulfilment values `[3]`. -/
theorem C1_witness : ([3] : List Nat).Perm (jobsA.filterMap okValue) := by
  refine C1_resolved_collection jobsA 1 runA2 [3] ?_ (by decide)
  show Reachable jobsA (initRun jobsA 1) (completeJob jobsA runA1 1)
  exact Relation.ReflTransGen.tail
    (Relation.ReflTransGen.single
      (show Step jobsA (initRun jobsA 1) runA1 from Step.complete _ 0 (by decide)))
    (Step.complete _ 1 (by decide))

/-- C2 (code bug): with an empty task list, `runAll`'s completion check
never runs (it only runs in a task's handler chain), so along every
reachable state the promise stays pending (`done = none`), never
resolving with the empty collection — though indeed no dispatch ever
occurs (`startLog = []`). -/
theorem C2_empty_runAll_never_resolves {α : Type} (K : Nat)
    (s : PoolState α)
    (h : Reachable ([] : List (Outcome α)) (initRun [] K) s) :
    s.done = none ∧ s.startLog = [] ∧ s.results = [] := by
  have hs : s = initRun ([] : List (Outcome α)) K :=
    reachable_of_inactive h rfl
  subst hs
  exact ⟨rfl, rfl, rfl⟩

/-- C2 witness: the pool of `main`'s size 50 on zero tasks, immediately
after `runAll` returns. -/
theorem C2_witness :
    (initRun ([] : List (Outcome Nat)) 50).done = none ∧
    (initRun ([] : List (Outcome Nat)) 50).startLog = [] ∧
    (initRun ([] : List (Outcome Nat)) 50).results = [] :=
  C2_empty_runAll_never_resolves 50 _ Relation.ReflTransGen.refl

/-- C3: in every reachable state the invocation log `startLog` has no
duplicates (no task is started twice), and once the run has resolved the
log is exactly `range N` — every submitted task was invoked, exactly
once. -/
theorem C3_each_job_invoked_once {α : Type} (jobs : List (Outcome α))
    (K : Nat) (s : PoolState α) (h : Reachable jobs (initRun jobs K) s) :
    s.startLog.Nodup ∧
    (s.done ≠ none → s.startLog = List.range jobs.length) := by
  have hG := good_reachable h
  constructor
  · have hsub : s.startLog.Sublist (List.range jobs.length) := by
      rw [← hG.log_queue]
      exact List.sublist_append_left _ _
    exact (List.nodup_range jobs.length).sublist hsub
  · intro hne
    have hF := finOk_reachable h (by unfold initRun; exact runAll_done _ _)
    rcases hd : s.done with _ | r
    · exact absurd hd hne
    · obtain ⟨_, _, hq⟩ := hF r hd
      have hx := hG.log_queue
      rw [hq, List.append_nil] at hx
      exact hx

/-- C3 witness: the completed run of one job with limit 2. -/
theorem C3_witness :
    runF.startLog.Nodup ∧
    (runF.done ≠ none → runF.startLog = List.range jobsF.length) := by
  refine C3_each_job_invoked_once jobsF 2 runF ?_
  show Reachable jobsF (initRun jobsF 2) (completeJob jobsF (initRun jobsF 2) 0)
  exact Relation.ReflTransGen.single (Step.complete _ 0 (by decide))

/-- C4: in every reachable state `0 ≤ running ≤ min K N` (running is a
`Nat`, so the lower bound is inherent), and along every step the running
count changes only by the one termination the step performs (`-1`) plus
the dispatches it performs (the growth of the invocation log). -/
theorem C4_running_bounded {α : Type} (jobs : List (Outcome α)) (K : Nat)
    (s s' : PoolState α) (h : Reachable jobs (initRun jobs K) s) :
    s.active.length ≤ min K jobs.length ∧
    (Step jobs s s' →
      s'.completed.length = s.completed.length + 1 ∧
      s.active.length + s'.startLog.length =
        s'.active.length + 1 + s.startLog.length) := by
  have hG := good_reachable h
  constructor
  · have h1 : s.active.length ≤ K := hG.cap
    have h2 : s.startLog.length = s.completed.length + s.active.length := by
      have hx := hG.perm.length_eq
      rw [List.length_append] at hx
      exact hx
    have h3 : s.startLog.length + s.queue.length = jobs.length := by
      have hx := congrArg List.length hG.log_queue
      rw [List.length_append, List.length_range] at hx
      exact hx
    refine Nat.le_min.mpr ⟨h1, ?_⟩
    omega
  · intro hstep
    cases hstep with
    | complete i hmem =>
        have hapos : 0 < s.active.length := List.length_pos.mpr
          (fun hh => by rw [hh] at hmem; exact (List.not_mem_nil i) hmem)
        have herase : (s.active.erase i).length = s.active.length - 1 :=
          List.length_erase_of_mem hmem
        rcases hq : s.queue with _ | ⟨t, rest⟩
        · obtain ⟨_, p2, p3, p4, _, _⟩ := completeJob_proj_nil jobs s i hq
          rw [p2, p3, p4]
          simp [List.length_append, herase]
          omega
        · obtain ⟨_, p2, p3, p4, _, _⟩ := completeJob_proj_cons jobs s i t rest hq
          rw [p2, p3, p4]
          simp [List.length_append, herase]
          omega

/-- C4 witness: the initial state of a 2-job run with limit 1, and its
first step. -/
theorem C4_witness :
    (initRun jobsG 1).active.length ≤ min 1 jobsG.length ∧
    (Step jobsG (initRun jobsG 1) (completeJob jobsG (initRun jobsG 1) 0) →
      (completeJob jobsG (initRun jobsG 1) 0).completed.length =
        (initRun jobsG 1).completed.length + 1 ∧
      (initRun jobsG 1).active.length +
          (completeJob jobsG (initRun jobsG 1) 0).startLog.length =
        (completeJob jobsG (initRun jobsG 1) 0).active.length + 1 +
          (initRun jobsG 1).startLog.length) :=
  C4_running_bounded jobsG 1 _ _ Relation.ReflTransGen.refl

/-- C5 (code bug at `N = 0`): every step strictly decreases the measure
`2·|queue| + |active|`, so no run of the event loop is infinite; and a
reachable state from which no step is possible has resolved with the
accumulated results exactly when the job list was non-empty — for the
empty list the promise provably never resolves, contradicting the claim's
"for every job list". -/
theorem C5_progress_and_completion {α : Type} (jobs : List (Outcome α))
    (K : Nat) (s s' : PoolState α) (hK : 1 ≤ K) :
    (Step jobs s s' →
      2 * s'.queue.length + s'.active.length <
        2 * s.queue.length + s.active.length) ∧
    (Reachable jobs (initRun jobs K) s → (∀ t, ¬ Step jobs s t) →
      (s.done = some s.results ↔ jobs ≠ [])) := by
  constructor
  · exact step_measure
  · intro hreach hstuck
    have hG := good_reachable hreach
    have hact : s.active = [] := by
      rcases hA : s.active with _ | ⟨a, as⟩
      · rfl
      · exact absurd
          (Step.complete s a (by rw [hA]; exact List.mem_cons_self a as))
          (hstuck _)
    have hq : s.queue = [] := by
      rcases hQ : s.queue with _ | ⟨b, bs⟩
      · rfl
      · have hx := hG.sat (by rw [hQ]; simp)
        rw [hact] at hx
        simp at hx
        omega
    constructor
    · intro hd hjobs
      subst hjobs
      have hs : s = initRun ([] : List (Outcome α)) K :=
        reachable_of_inactive hreach rfl
      rw [hs] at hd
      have hnone : (initRun ([] : List (Outcome α)) K).done = none := rfl
      rw [hnone] at hd
      exact Option.noConfusion hd
    · intro hne
      rcases hreach.cases_tail with heq | ⟨c, _, hstep⟩
      · exfalso
        have hcompleted : s.completed = [] := by
          rw [heq]
          unfold initRun runAll startThreads
          rw [startThreadsAux_completed]
          rfl
        have hp := hG.perm
        rw [hact, List.append_nil, hcompleted] at hp
        have hlog : s.startLog = [] := hp.eq_nil
        have hx := hG.log_queue
        rw [hlog, hq] at hx
        have hlen : jobs.length = 0 := by
          have hy := congrArg List.length hx.symm
          simpa using hy
        exact hne (List.length_eq_zero.mp hlen)
      · cases hstep with
        | complete i hmem => exact completeJob_resolves jobs c i hact hq

/-- C5 witness: the first step of the one-job run decreases the measure,
and its final stuck state has resolved (the job list is non-empty). -/
theorem C5_witness :
    (2 * runE.queue.length + runE.active.length <
      2 * (initRun jobsE 1).queue.length + (initRun jobsE 1).active.length) ∧
    (runE.done = some runE.results ↔ jobsE ≠ []) := by
  constructor
  · exact (C5_progress_and_completion jobsE 1 (initRun jobsE 1) runE
      (by decide)).1
      (show Step jobsE (initRun jobsE 1) runE from Step.complete _ 0 (by decide))
  · refine (C5_progress_and_completion jobsE 1 runE runE (by decide)).2 ?_ ?_
    · show Reachable jobsE (initRun jobsE 1) (completeJob jobsE (initRun jobsE 1) 0)
      exact Relation.ReflTransGen.single (Step.complete _ 0 (by decide))
    · intro t ht
      cases ht with
      | complete i hmem =>
          have hact : runE.active = [] := by decide
          rw [hact] at hmem
          exact (List.not_mem_nil i) hmem

/-- C6, counterexample to the claim as stated: for `[err "boom", ok 7]`
with limit 1, the batch is not aborted (the second job still runs and the
run resolves), but the failure is not recorded in the results collection:
the resolved collection is `[7]`, one entry for two jobs. -/
theorem C6_counterexample :
    Reachable jobsC (initRun jobsC 1) runC2 ∧
    runC2.done = some [7] ∧
    jobsC.length = 2 ∧
    ¬ (([7] : List Nat).length = jobsC.length) := by
  refine ⟨?_, by decide, by decide, by decide⟩
  show Reachable jobsC (initRun jobsC 1) (completeJob jobsC runC1 1)
  exact Relation.ReflTransGen.tail
    (Relation.ReflTransGen.single
      (show Step jobsC (initRun jobsC 1) runC1 from Step.complete _ 0 (by decide)))
    (Step.complete _ 1 (by decide))

/-- C6 (amended): a failing job never aborts the batch: in every reachable
state the results are exactly the fulfilment values of the settled tasks
(a rejection is contained — it contributes no entry and no exception: the
only way the run communicates is by resolving with `results`), and the
runner keeps dispatching — whenever tasks are queued some task is
active. -/
theorem C6_failure_contained {α : Type} (jobs : List (Outcome α)) (K : Nat)
    (s : PoolState α) (hK : 1 ≤ K)
    (h : Reachable jobs (initRun jobs K) s) :
    s.results = s.completed.filterMap (okOf jobs) ∧
    (0 < s.queue.length → s.active ≠ []) ∧
    (s.done = none ∨ s.done = some s.results) := by
  have hG := good_reachable h
  refine ⟨hG.res, ?_, ?_⟩
  · intro hq hnil
    have hx := hG.sat hq
    rw [hnil] at hx
    simp at hx
    omega
  · have hF := finOk_reachable h (by unfold initRun; exact runAll_done _ _)
    rcases hd : s.done with _ | r
    · exact Or.inl rfl
    · obtain ⟨hr, _, _⟩ := hF r hd
      exact Or.inr (by rw [hr])

/-- C6 witness: the state of the 3-job run (first job failing, limit 1)
right after the failing job settled: a task is still queued, a task is
active, and the failure contributed no result entry. -/
theorem C6_witness :
    runD1.results = runD1.completed.filterMap (okOf jobsD) ∧
    (0 < runD1.queue.length → runD1.active ≠ []) ∧
    (runD1.done = none ∨ runD1.done = some runD1.results) := by
  refine C6_failure_contained jobsD 1 runD1 (by decide) ?_
  show Reachable jobsD (initRun jobsD 1) (completeJob jobsD (initRun jobsD 1) 0)
  exact Relation.ReflTransGen.single (Step.complete _ 0 (by decide))

/-- C7: in every reachable state the invocation log followed by the queue
is exactly the submission order `range N` — so the queue is always the
not-yet-started jobs in submission order, and every dispatch (which takes
the queue's head) starts the earliest-submitted not-yet-started job; each
step only appends to the log. -/
theorem C7_fifo_dispatch {α : Type} (jobs : List (Outcome α)) (K : Nat)
    (s s' : PoolState α) (h : Reachable jobs (initRun jobs K) s) :
    s.startLog ++ s.queue = List.range jobs.length ∧
    (Step jobs s s' → s.startLog <+: s'.startLog) := by
  have hG := good_reachable h
  refine ⟨hG.log_queue, ?_⟩
  intro hstep
  cases hstep with
  | complete i hmem =>
      rcases hq : s.queue with _ | ⟨t, rest⟩
      · obtain ⟨_, _, p3, _, _, _⟩ := completeJob_proj_nil jobs s i hq
        rw [p3]
      · obtain ⟨_, _, p3, _, _, _⟩ := completeJob_proj_cons jobs s i t rest hq
        rw [p3]
        exact ⟨[t], rfl⟩

/-- C7 witness: the initial state of the 2-job run with limit 1 and its
first step. -/
theorem C7_witness :
    (initRun jobsG 1).startLog ++ (initRun jobsG 1).queue =
      List.range jobsG.length ∧
    (Step jobsG (initRun jobsG 1) (completeJob jobsG (initRun jobsG 1) 0) →
      (initRun jobsG 1).startLog <+:
        (completeJob jobsG (initRun jobsG 1) 0).startLog) :=
  C7_fifo_dispatch jobsG 1 _ _ Relation.ReflTransGen.refl

/-- C8: `runAll` never clears `results`: called on a pool whose `results`
already holds the previous run's entries, it keeps them, every later state
extends them, and when the new promise resolves it resolves with the
extended collection — so the entries of a first run are all still present
in what a second `runAll` on the same instance resolves with. -/
theorem C8_results_never_cleared {α : Type} (s : PoolState α)
    (jobs : List (Outcome α)) (tasks : List Nat) (s' : PoolState α)
    (h : Reachable jobs (runAll s tasks) s') :
    (runAll s tasks).results = s.results ∧
    s.results <+: s'.results ∧
    (s'.done = none ∨ s'.done = some s'.results) := by
  refine ⟨runAll_results s tasks, ?_, ?_⟩
  · obtain ⟨t, ht⟩ := reachable_results_append h
    rw [runAll_results] at ht
    exact ⟨t, ht.symm⟩
  · have hF := finOk_reachable h (runAll_done _ _)
    rcases hd : s'.done with _ | r
    · exact Or.inl rfl
    · obtain ⟨hr, _, _⟩ := hF r hd
      exact Or.inr (by rw [hr])

/-- C8 witness: a pool still holding `[5]` from a previous run, given one
fresh task which fulfils with 9: the second run resolves with `[5, 9]`. -/
theorem C8_witness :
    (runAll poolH [0]).results = poolH.results ∧
    poolH.results <+: runH.results ∧
    (runH.done = none ∨ runH.done = some runH.results) := by
  refine C8_results_never_cleared poolH jobsH [0] runH ?_
  show Reachable jobsH (runAll poolH [0]) (completeJob jobsH (runAll poolH [0]) 0)
  exact Relation.ReflTransGen.single (Step.complete _ 0 (by decide))

/-- C9: a tag whose remote deletion fails with a tag-not-found error lands
in neither `successTags` nor `failedTags` (it goes to `deletedLocalTags`
when the local deletion succeeds, and nowhere otherwise), so
`|successTags| + |failedTags| ≤ |tagsToDelete|`, with strict inequality
possible (witnessed by the one-tag instance whose push reports
"remote ref does not exist"). -/
theorem C9_notfound_tags_uncounted (pr : String → PushResult)
    (ld : String → Bool) (tags : List String) (tag e e' : String)
    (hmem : tag ∈ tags) (hp : pr tag = PushResult.err e)
    (hn : isTagNotFoundError e = true) :
    tag ∉ (runDeleteTasks pr ld tags).successTags ∧
    (tag, e') ∉ (runDeleteTasks pr ld tags).failedTags ∧
    (ld tag = true → tag ∈ (runDeleteTasks pr ld tags).deletedLocalTags) ∧
    (runDeleteTasks pr ld tags).successTags.length +
        (runDeleteTasks pr ld tags).failedTags.length ≤ tags.length ∧
    (runDeleteTasks prStrict ldStrict ["v1"]).successTags.length +
        (runDeleteTasks prStrict ldStrict ["v1"]).failedTags.length <
      (["v1"] : List String).length := by
  refine ⟨?_, ?_, ?_, ?_, by decide⟩
  · intro hin
    unfold runDeleteTasks at hin
    rw [foldl_successTags] at hin
    simp [List.mem_filter] at hin
    rw [isPushOk_of_err hp] at hin
    exact Bool.noConfusion hin.2
  · intro hin
    unfold runDeleteTasks at hin
    rw [foldl_failedTags] at hin
    simp [List.mem_filter, List.mem_map] at hin
    obtain ⟨a, ⟨hamem, hafail⟩, haeq⟩ := hin
    have hat : a = tag := haeq.1
    rw [hat, isPushFailed_of_err hp, hn] at hafail
    exact Bool.noConfusion hafail
  · intro hl
    unfold runDeleteTasks
    rw [foldl_deletedLocalTags]
    simp [List.mem_filter]
    refine ⟨hmem, ?_⟩
    rw [isPushOk_of_err hp, isPushFailed_of_err hp, hn, hl]
    decide
  · unfold runDeleteTasks
    rw [foldl_successTags, foldl_failedTags]
    simp [List.length_map]
    exact filters_le pr tags

/-- C9 witness: two tags, the first failing with "tag does not exist":
it is counted in neither list and the totals stay below the tag count. -/
theorem C9_witness :
    "a" ∉ (runDeleteTasks prW ldW ["a", "b"]).successTags ∧
    ("a", "z") ∉ (runDeleteTasks prW ldW ["a", "b"]).failedTags ∧
    (ldW "a" = true → "a" ∈ (runDeleteTasks prW ldW ["a", "b"]).deletedLocalTags) ∧
    (runDeleteTasks prW ldW ["a", "b"]).successTags.length +
        (runDeleteTasks prW ldW ["a", "b"]).failedTags.length ≤
      (["a", "b"] : List String).length ∧
    (runDeleteTasks prStrict ldStrict ["v1"]).successTags.length +
        (runDeleteTasks prStrict ldStrict ["v1"]).failedTags.length <
      (["v1"] : List String).length :=
  C9_notfound_tags_uncounted prW ldW ["a", "b"] "a" "tag does not exist" "z"
    (by decide) (by decide) (by decide)

/-- C10: `main` puts a tag into `tagsToDelete` exactly when the claim's
condition `claimDelete` holds — it starts with `'v'` and either does not
start with `'v35'`..`'v38'` or has a non-digit non-dot character from
index 3 on — and into `tagsToKeep` exactly otherwise, so every tag goes to
exactly one of the two lists. -/
theorem C10_classification (tags : List (List Char)) (tag : List Char)
    (hmem : tag ∈ tags) :
    (tag ∈ (mainPartition tags).1 ↔ claimDelete tag = true) ∧
    (tag ∈ (mainPartition tags).2 ↔ claimDelete tag = false) := by
  unfold mainPartition
  rw [mainPartition_foldl]
  constructor
  · simp [List.mem_filter, hmem]
  · simp [List.mem_filter, hmem]

/-- C10 witness: `v350.0.0` (all digits and dots after index 3) is kept,
on the concrete tag list `[v350.0.0, v35.0.0-alpha]`. -/
theorem C10_witness :
    ("v350.0.0".toList ∈
        (mainPartition ["v350.0.0".toList, "v35.0.0-alpha".toList]).1 ↔
      claimDelete "v350.0.0".toList = true) ∧
    ("v350.0.0".toList ∈
        (mainPartition ["v350.0.0".toList, "v35.0.0-alpha".toList]).2 ↔
      claimDelete "v350.0.0".toList = false) :=
  C10_classification _ _ (by decide)

end ClearJs
